import Mathlib

/-!
Verification of the readall RSVP core.

Shallow embedding of:
  * src/services/rsvpUtils.ts   (calculateFocalIndex, calculateChunkDelay,
                                 algorithmicChunker, extractChapters)
  * src/unnamed/part_000        (semanticChunkText offset resolution)
  * the zustand store in src/components/Library.tsx
                                 (setCurrentIndex, advanceIndex)

Modelling conventions:
  * JS strings are `List Char`; character offsets are `Nat` indices.
  * JS numbers are exact rationals (`ℚ`) or integers; `Math.round` is
    `jsRound`, `Math.floor` on non-negative values is `Nat` division.
  * Character classes from the source regexes are spelled out over the
    character code (`Char.toNat`): `\w` is `[A-Za-z0-9_]` (65..90, 97..122,
    48..57, 95), the apostrophes of the tokenizer are `'` (39) and the
    right single quote U+2019 (8217), the hyphen is 45.
  * `\s` (also used by `String.prototype.trim`) is the ECMAScript WhiteSpace
    plus LineTerminator set: TAB 9, LF 10, VT 11, FF 12, CR 13, SP 32,
    NBSP 160, 0x1680, 0x2000-0x200A, LS 0x2028, PS 0x2029, 0x202F, 0x205F,
    0x3000, BOM 0xFEFF.
-/

namespace Readall

/-- ECMAScript `\s` (WhiteSpace ∪ LineTerminator), also the set removed by
`String.prototype.trim`. -/
def jsWhitespace (c : Char) : Bool :=
  let n := c.toNat
  n = 32 || n = 9 || n = 10 || n = 11 || n = 12 || n = 13 || n = 160 ||
  n = 5760 || (8192 ≤ n && n ≤ 8202) || n = 8232 || n = 8233 || n = 8239 ||
  n = 8287 || n = 12288 || n = 65279

/-- ECMAScript `\S`. -/
def notWS (c : Char) : Bool := !jsWhitespace c

/-- `String.prototype.trim`. -/
def jsTrim (l : List Char) : List Char :=
  ((l.dropWhile jsWhitespace).reverse.dropWhile jsWhitespace).reverse

/-- ASCII letter, the class `[A-Za-z]`. -/
def asciiLetter (c : Char) : Bool :=
  let n := c.toNat
  (65 ≤ n && n ≤ 90) || (97 ≤ n && n ≤ 122)

/-- ASCII digit, the class `\d` (no `u` flag, so ASCII only). -/
def asciiDigit (c : Char) : Bool :=
  let n := c.toNat
  48 ≤ n && n ≤ 57

/-- ASCII lower-casing, the canonicalisation performed by the `i` regex flag
on the ASCII-only patterns of this code base. -/
def lowerChar (c : Char) : Char :=
  if 65 ≤ c.toNat && c.toNat ≤ 90 then Char.ofNat (c.toNat + 32) else c

/-- `Math.round` on a non-negative JS number: round half away from zero,
i.e. `⌊x + 1/2⌋`. -/
def jsRound (q : ℚ) : ℤ := ⌊q + 1 / 2⌋

/-- Chunk kinds (src/types: `word | phrase | entity | idiom`). -/
inductive Kind
  | word
  | phrase
  | entity
  | idiom
deriving DecidableEq

/-- A chunk/token: `{ text, start, end, kind, focalIndex }`.  `end` is a Lean
keyword, so the exclusive end offset is called `stop`. -/
structure Chunk where
  text : List Char
  start : Nat
  stop : Nat
  kind : Kind
  focalIndex : Nat
deriving DecidableEq

/-- `calculateFocalIndex` (rsvpUtils.ts:7-12): trim, return 0 for length ≤ 1,
else `Math.floor(length * 0.35)` (exact: `length * 35 / 100` in `Nat`). -/
def calculateFocalIndex (text : List Char) : Nat :=
  let wordPart := jsTrim text
  if wordPart.length ≤ 1 then 0 else wordPart.length * 35 / 100

/-- Number of maximal runs of non-whitespace characters.  For a trimmed
non-empty token this equals `token.split(/\s+/).length`; for the empty token
it is 0 where JS gives 1, and both fail the `wordCount > 1` test below. -/
def countWords : List Char → Nat
  | [] => 0
  | c :: cs =>
    if jsWhitespace c then countWords cs
    else 1 + countWords (cs.dropWhile notWS)
termination_by l => l.length
decreasing_by
  all_goals simp only [List.length_cons]
  · omega
  · have := (List.dropWhile_sublist notWS (l := cs)).length_le
    omega

/-- The acronym regex `/^([A-Za-z]\.)+$/` body: one or more (letter, '.')
pairs.  Each iteration consumes exactly two characters, so the regex is
equivalent to this deterministic scan. -/
def acroPairs : List Char → Bool
  | [] => true
  | c1 :: c2 :: rest => asciiLetter c1 && c2.toNat = 46 && acroPairs rest
  | [_] => false

/-- `isAcronym` (rsvpUtils.ts:48). -/
def acronymTest (l : List Char) : Bool :=
  !l.isEmpty && acroPairs l

/-- `isAbbreviation` (rsvpUtils.ts:51): `/^(Mr|Mrs|Ms|Dr|Prof|Sr|Jr|St)\.$/i`. -/
def abbrevTest (l : List Char) : Bool :=
  let low := l.map lowerChar
  ["mr.", "mrs.", "ms.", "dr.", "prof.", "sr.", "jr.", "st."].any
    (fun s => low = s.toList)

/-- `isNumericComma` (rsvpUtils.ts:54): `/\d,$/`, i.e. the last two
characters are a digit followed by a comma. -/
def numCommaTest (l : List Char) : Bool :=
  match l.reverse with
  | c2 :: c1 :: _ => c2.toNat = 44 && asciiDigit c1
  | _ => false

/-- Trailing `.` `!` `?`. -/
def isSentenceEnd (c : Char) : Bool :=
  c.toNat = 46 || c.toNat = 33 || c.toNat = 63

/-- Trailing `,` `;` `:`. -/
def isClauseEnd (c : Char) : Bool :=
  c.toNat = 44 || c.toNat = 59 || c.toNat = 58

/-- The delay of `calculateChunkDelay` (rsvpUtils.ts:17-68) before the final
`Math.round`.  `token.slice(-1)` on the empty token is `""`, which is in none
of the punctuation lists; this is modelled by `getLast?` returning `none`. -/
def delayPre (chunk : Chunk) (wpm : ℚ) : ℚ :=
  let baseDelayMs : ℚ := 60000 / wpm
  let token := jsTrim chunk.text
  let length := token.length
  -- 1. Length Modifier
  let d1 : ℚ :=
    if 10 < length then baseDelayMs * (13 / 10)
    else if length < 3 then baseDelayMs * (9 / 10)
    else baseDelayMs
  -- 2. Phrase Modifier
  let d2 : ℚ :=
    if (chunk.kind = Kind.phrase ∨ chunk.kind = Kind.idiom) ∧ 1 < countWords token
    then baseDelayMs * (countWords token * (17 / 20))
    else d1
  -- 3. Punctuation Modifiers
  let d3 : ℚ :=
    if acronymTest token || abbrevTest token || numCommaTest token then d2
    else
      match token.getLast? with
      | none => d2
      | some c =>
        if isSentenceEnd c then d2 + 300
        else if isClauseEnd c then baseDelayMs / (9 / 10)
        else d2
  d3

/-- `calculateChunkDelay` (rsvpUtils.ts:17-68): the adjusted delay, rounded
to integer milliseconds. -/
def calculateChunkDelay (chunk : Chunk) (wpm : ℚ) : ℤ :=
  jsRound (delayPre chunk wpm)

/-! ## Tokenizer (`algorithmicChunker`, rsvpUtils.ts:74-99)

The regex `/(?:[\w'’’-]+[.,!?;:]*)|(?:\S+)/g` (the source writes the
right single quote both literally and as an escape; they are the same
character) is scanned with `exec`:
the engine looks for the first position at or after `lastIndex` where the
pattern matches, preferring the first alternative.  Whitespace never starts
a match, so a match begins at the next non-whitespace character; there the
first alternative (if the character is in the word class) takes the maximal
run of word characters followed by the maximal run of `[.,!?;:]`, and
otherwise the second alternative takes the maximal run of non-whitespace
characters.  (Both runs are greedy and the pattern has no trailing context,
so no backtracking shortens them.) -/

/-- The tokenizer word class: `\w`, the ASCII apostrophe (39), the right
single quote (U+2019 = 8217), and the hyphen (45). -/
def wordChar (c : Char) : Bool :=
  let n := c.toNat
  (97 ≤ n && n ≤ 122) || (65 ≤ n && n ≤ 90) || (48 ≤ n && n ≤ 57) ||
  n = 95 || n = 39 || n = 8217 || n = 45

/-- The tokenizer punctuation class `[.,!?;:]`. -/
def sentencePunct (c : Char) : Bool :=
  let n := c.toNat
  n = 46 || n = 44 || n = 33 || n = 63 || n = 59 || n = 58

/-- First regex alternative at a word character: maximal word-character run,
then maximal `[.,!?;:]` run. -/
def wordToken (l : List Char) : List Char :=
  l.takeWhile wordChar ++ (l.dropWhile wordChar).takeWhile sentencePunct

/-- A word-kind chunk for the token `t` at offset `i`. -/
def mkWordChunk (t : List Char) (i : Nat) : Chunk :=
  { text := t, start := i, stop := i + t.length, kind := Kind.word,
    focalIndex := calculateFocalIndex t }

/-- The `exec` loop of `algorithmicChunker`, at absolute offset `i`.  The
structural recursion is driven by a fuel counter: every iteration consumes
at least one character of the suffix, so any `fuel ≥` the suffix length
(in particular the initial `text.length`) yields the loop's full output and
the fuel-exhausted branch is never taken. -/
def algorithmicChunkerAux : Nat → List Char → Nat → List Chunk
  | 0, _, _ => []
  | _ + 1, [], _ => []
  | fuel + 1, c :: cs, i =>
    if jsWhitespace c then algorithmicChunkerAux fuel cs (i + 1)
    else if wordChar c then
      mkWordChunk (wordToken (c :: cs)) i ::
        algorithmicChunkerAux fuel ((cs.dropWhile wordChar).dropWhile sentencePunct)
          (i + (wordToken (c :: cs)).length)
    else
      mkWordChunk ((c :: cs).takeWhile notWS) i ::
        algorithmicChunkerAux fuel (cs.dropWhile notWS)
          (i + ((c :: cs).takeWhile notWS).length)

/-- `algorithmicChunker` (rsvpUtils.ts:74-99). -/
def algorithmicChunker (text : List Char) : List Chunk :=
  algorithmicChunkerAux text.length text 0

/-! ## Chapter extractor (`extractChapters`, rsvpUtils.ts:104-140)

The heading regex (flags `gim`) is

  `(?:^|\n)\s*((?:chapter|part|book)\s+(?:[a-z]+|\d+|[ivxlcdm]+).*?|(?:prologue|epilogue|introduction|preface|foreword).*?)(?:\r?\n|$)`

Its `exec` behaviour, which the scanner below reimplements:

  * A match can start only at a position where multiline `^` holds (offset 0
    or after a line terminator LF/CR/LS/PS) or at a literal `\n`.  When `^`
    holds the `\n` branch explores a strict subset of the `^` branch's
    continuations (`\s*` absorbs the newline), so trying the `\n` branch only
    when `^` fails is equivalent.
  * `\s*` is greedy and the alternation that follows starts with a
    non-whitespace letter, so only the maximal whitespace run can succeed.
  * First alternative: a keyword of chapter/part/book (case-insensitive),
    then `\s+` (at least one whitespace character, maximal run as above),
    then `(?:[a-z]+|\d+|[ivxlcdm]+)` — with the `i` flag the three classes
    collapse to "the next character is an ASCII letter or digit", because
    `[a-z]+` greedily takes any letter run and `.*?` accepts anything up to
    the line end.
  * Second alternative: a keyword of prologue/epilogue/introduction/
    preface/foreword, with nothing further required.
  * `.` does not match line terminators, and the lazy `.*?` followed by
    `(?:\r?\n|$)` (multiline `$` matches at end or before any line
    terminator) extends the capture exactly to the next line terminator or
    the end of the text, always succeeding.
  * The full match additionally consumes a following `\n` or `\r\n` (but
    not a lone `\r` or LS/PS, where `$` applies instead), and `lastIndex`
    moves to the end of the full match, so the next match starts at or after
    that point. -/

/-- ECMAScript LineTerminator: LF, CR, LS, PS. -/
def lineTerminator (c : Char) : Bool :=
  let n := c.toNat
  n = 10 || n = 13 || n = 8232 || n = 8233

/-- Negation of `lineTerminator`, the class matched by `.` (no `s` flag). -/
def notTerm (c : Char) : Bool := !lineTerminator c

/-- Case-insensitive "starts with" against a lowercase keyword. -/
def startsWithCI : List Char → List Char → Bool
  | [], _ => true
  | _ :: _, [] => false
  | k :: ks, c :: cs => (lowerChar c = k) && startsWithCI ks cs

/-- Keywords of the first heading alternative. -/
def kwA : List (List Char) := ["chapter".toList, "part".toList, "book".toList]

/-- Keywords of the second heading alternative. -/
def kwB : List (List Char) :=
  ["prologue".toList, "epilogue".toList, "introduction".toList,
   "preface".toList, "foreword".toList]

/-- First heading alternative at the position after `\s*`; returns the
capture-group-1 text on success. -/
def tryAltA (l1 : List Char) : Option (List Char) :=
  match kwA.find? (fun k => startsWithCI k l1) with
  | none => none
  | some kw =>
    let l2 := l1.drop kw.length
    let sp := l2.takeWhile jsWhitespace
    if sp.isEmpty then none
    else
      match (l2.drop sp.length).head? with
      | none => none
      | some d =>
        if asciiLetter d || asciiDigit d then
          some (l1.take (kw.length + sp.length +
            ((l2.drop sp.length).takeWhile notTerm).length))
        else none

/-- Second heading alternative at the position after `\s*`. -/
def tryAltB (l1 : List Char) : Option (List Char) :=
  match kwB.find? (fun k => startsWithCI k l1) with
  | none => none
  | some kw =>
    some (l1.take (kw.length + ((l1.drop kw.length).takeWhile notTerm).length))

/-- The group-1 alternation, first alternative preferred. -/
def tryAlt (l1 : List Char) : Option (List Char) :=
  match tryAltA l1 with
  | some cap => some cap
  | none => tryAltB l1

/-- Attempt the regex body (everything after the `(?:^|\n)` anchor) at the
start of `l`.  On success returns the capture, the number of characters of
`l` consumed by the whole match, and whether the last consumed character is
a line terminator (i.e. whether `^` holds right after the match). -/
def bodyAt (l : List Char) : Option (List Char × Nat × Bool) :=
  let ws := l.takeWhile jsWhitespace
  match tryAlt (l.dropWhile jsWhitespace) with
  | none => none
  | some cap =>
    let extra : Nat :=
      match l.drop (ws.length + cap.length) with
      | c1 :: c2 :: _ =>
        if c1.toNat = 13 && c2.toNat = 10 then 2
        else if c1.toNat = 10 then 1 else 0
      | [c1] => if c1.toNat = 10 then 1 else 0
      | [] => 0
    some (cap, ws.length + cap.length + extra, decide (0 < extra))

/-- The anchor handling of the heading regex at one position: try the body
via multiline `^` when it holds, else via a consumed literal `\n`. -/
def anchoredBodyAt (caret : Bool) (c : Char) (cs : List Char) :
    Option (List Char × Nat × Bool) :=
  if caret then bodyAt (c :: cs)
  else if c.toNat = 10 then
    match bodyAt cs with
    | none => none
    | some (cap, n, fl) => some (cap, n + 1, fl)
  else none

/-- The `exec` loop of `extractChapters`: all heading matches of the text
suffix (which starts at absolute offset `p`; `caret` tells whether multiline
`^` holds at `p`).  Produces `(match.index, match[1])` pairs.  As in
`algorithmicChunkerAux` the structural recursion is driven by a fuel counter
bounded below by the suffix length; every step consumes at least one
character (a match consumes its nonempty `match[0]`), so the fuel-exhausted
branch is never taken. -/
def scanChapters : Nat → Bool → List Char → Nat → List (Nat × List Char)
  | 0, _, _, _ => []
  | _ + 1, _, [], _ => []
  | fuel + 1, caret, c :: cs, p =>
    match anchoredBodyAt caret c cs with
    | some (cap, n, fl) => (p, cap) :: scanChapters fuel fl (cs.drop (n - 1)) (p + n)
    | none => scanChapters fuel (lineTerminator c) cs (p + 1)

/-- A chapter marker `{ title, chunkIndex }`. -/
structure Chapter where
  title : List Char
  chunkIndex : Nat
deriving DecidableEq

/-- `Array.prototype.findIndex`, with `-1` as `none`. -/
def jsFindIndex (p : Chunk → Bool) : List Chunk → Option Nat
  | [] => none
  | x :: xs => if p x then some 0 else (jsFindIndex p xs).map (· + 1)

/-- Title post-processing (rsvpUtils.ts:115,127): trim, then truncate to 50
characters plus an ellipsis when longer. -/
def truncTitle (t : List Char) : List Char :=
  let tt := jsTrim t
  if 50 < tt.length then tt.take 50 ++ "...".toList else tt

/-- The match-processing loop of `extractChapters` (rsvpUtils.ts:114-132):
resolve each match to the first chunk whose `start` is at or after the match
offset, drop matches with no such chunk, and deduplicate a match resolving
to the same chunk index as the previously kept chapter.  `lastIdx` is the
chunk index of the previously kept chapter, if any. -/
def buildChapters (chunks : List Chunk) :
    List (Nat × List Char) → Option Nat → List Chapter
  | [], _ => []
  | m :: ms, lastIdx =>
    match jsFindIndex (fun ch => decide (m.1 ≤ ch.start)) chunks with
    | none => buildChapters chunks ms lastIdx
    | some idx =>
      match lastIdx with
      | some j =>
        if j = idx then buildChapters chunks ms lastIdx
        else ⟨truncTitle m.2, idx⟩ :: buildChapters chunks ms (some idx)
      | none => ⟨truncTitle m.2, idx⟩ :: buildChapters chunks ms (some idx)

/-- `extractChapters` (rsvpUtils.ts:104-140). -/
def extractChapters (text : List Char) (chunks : List Chunk) : List Chapter :=
  let cs := buildChapters chunks (scanChapters text.length true text 0) none
  if cs.isEmpty then [⟨"Start of Text".toList, 0⟩] else cs

/-! ## Chunk-set reconciler

Offset resolution of the enriched items (`semanticChunkText`,
src/unnamed/part_000:104-131) and the merge in the `processAIChunks`
effect of the App component (in the src/components/Library.tsx bundle). -/

/-- `text.substring(s, s + pat.length) = pat`, i.e. `pat` occurs at `s`. -/
def occursAt (text pat : List Char) (s : Nat) : Bool :=
  decide ((text.drop s).take pat.length = pat)

/-- `String.prototype.indexOf(pat, i)` with `-1` as `none`: the smallest
`s ≥ i` where `pat` occurs.  (`i ≤ text.length` throughout this code, where
this agrees with JS, including the empty-pattern case.) -/
def indexOfFrom (text pat : List Char) (i : Nat) : Option Nat :=
  (List.range (text.length + 1)).find? (fun s => decide (i ≤ s) && occursAt text pat s)

/-- The resolution loop of `semanticChunkText` (part_000:112-129): each
enriched `(text, kind)` item is placed at the first occurrence of its text
at or after `i` (the `currentSearchIndex`, initially 0, afterwards the end
of the previously resolved item); items that are not found are dropped. -/
def resolveEnriched (text : List Char) :
    List (List Char × Kind) → Nat → List Chunk
  | [], _ => []
  | (t, k) :: items, i =>
    match indexOfFrom text t i with
    | none => resolveEnriched text items i
    | some s =>
      { text := t, start := s, stop := s + t.length, kind := k,
        focalIndex := calculateFocalIndex t } ::
      resolveEnriched text items (s + t.length)

/-- Modelled from the spec and claim wording: `E`, the end offset of the
last successfully resolved enriched item, 0 if none resolved.  (The App code
reads `smartChunks[smartChunks.length - 1].end` only when the list is
non-empty; this closes the gap with 0 exactly as the claim does.) -/
def lastResolvedEnd (resolved : List Chunk) : Nat :=
  match resolved.getLast? with
  | none => 0
  | some c => c.stop

/-- The merge step of the App's `processAIChunks`: if any smart chunks were
produced, keep them and the existing chunks starting at or after the last
smart chunk's end; otherwise the book's chunk sequence is left unchanged. -/
def processAIChunks (existing smart : List Chunk) : List Chunk :=
  match smart.getLast? with
  | none => existing
  | some lastSmart =>
    smart ++ existing.filter (fun c => decide (lastSmart.stop ≤ c.start))

/-! ## Playback store (src/components/Library.tsx:738-752)

`setCurrentIndex` and `advanceIndex` of the zustand store, for a loaded
book with `chunksLen` chunks.  The index is an `ℤ` because `seek` accepts
out-of-range (also negative) JS numbers before clamping. -/

/-- The store fields touched by seek/advance. -/
structure StoreState where
  isPlaying : Bool
  currentIndex : ℤ
deriving DecidableEq

/-- `setCurrentIndex` (Library.tsx:738-743):
`Math.max(0, Math.min(index, chunks.length - 1))`. -/
def setCurrentIndex (chunksLen : Nat) (index : ℤ) (s : StoreState) : StoreState :=
  { s with currentIndex := max 0 (min index ((chunksLen : ℤ) - 1)) }

/-- `advanceIndex` (Library.tsx:745-752): at or past the last index, stop
playing and keep the index; otherwise step by one. -/
def advanceIndex (chunksLen : Nat) (s : StoreState) : StoreState :=
  if (chunksLen : ℤ) - 1 ≤ s.currentIndex then { s with isPlaying := false }
  else { s with currentIndex := s.currentIndex + 1 }

/-! ## Concrete chunks used in the claims -/

/-- The token "U.S.A." as a chunk. -/
def usaChunk : Chunk :=
  ⟨"U.S.A.".toList, 0, 6, Kind.word, calculateFocalIndex "U.S.A.".toList⟩

/-- The token "Hello." as a chunk. -/
def helloDotChunk : Chunk :=
  ⟨"Hello.".toList, 0, 6, Kind.word, calculateFocalIndex "Hello.".toList⟩

/-- The token "Hello," as a chunk. -/
def helloCommaChunk : Chunk :=
  ⟨"Hello,".toList, 0, 6, Kind.word, calculateFocalIndex "Hello,".toList⟩

/-- The token "ab" as a chunk. -/
def abChunk : Chunk := ⟨['a', 'b'], 0, 2, Kind.word, 0⟩

/-! # Theorems -/

/-- Rounding respects a gap of at least one. -/
theorem jsRound_lt_jsRound {a b : ℚ} (h : a + 1 ≤ b) : jsRound a < jsRound b := by
  have h1 : (⌊a + 1 / 2⌋ : ℤ) + 1 = ⌊a + 1 / 2 + 1⌋ := (Int.floor_add_one (a + 1 / 2)).symm
  have h2 : (⌊a + 1 / 2 + 1⌋ : ℤ) ≤ ⌊b + 1 / 2⌋ := Int.floor_le_floor (by linarith)
  unfold jsRound
  omega

/-- Rounding a value of at least one half gives a positive integer. -/
theorem pos_jsRound {q : ℚ} (h : 1 / 2 ≤ q) : 0 < jsRound q := by
  have h2 : (⌊(1 : ℚ)⌋ : ℤ) ≤ ⌊q + 1 / 2⌋ := Int.floor_le_floor (by linarith)
  rw [Int.floor_one] at h2
  unfold jsRound
  omega

/-- Trimming never lengthens a string. -/
theorem jsTrim_length_le (l : List Char) : (jsTrim l).length ≤ l.length := by
  unfold jsTrim
  have h1 := (List.dropWhile_sublist jsWhitespace (l := l)).length_le
  have h2 := (List.dropWhile_sublist jsWhitespace
    (l := (l.dropWhile jsWhitespace).reverse)).length_le
  simp only [List.length_reverse] at *
  omega

/-- A clause-final character is not sentence-final. -/
theorem clause_not_sentence {c : Char} (h : isClauseEnd c = true) :
    isSentenceEnd c = false := by
  simp [isClauseEnd, isSentenceEnd] at *
  omega

/-- Claim C6 (confirmed): `calculateFocalIndex` returns 0 when the trimmed
text has length at most 1 and `floor(length * 0.35)` otherwise, measured on
the trimmed text with punctuation kept; "I" maps to 0, "Hello," maps to 2,
and on non-empty text the result is strictly below the text's length. -/
theorem focal_index_spec :
    (∀ text : List Char,
      calculateFocalIndex text =
        if (jsTrim text).length ≤ 1 then 0 else (jsTrim text).length * 35 / 100) ∧
    (∀ text : List Char, text ≠ [] → calculateFocalIndex text < text.length) ∧
    calculateFocalIndex ['I'] = 0 ∧ calculateFocalIndex "Hello,".toList = 2 := by
  refine ⟨fun text => rfl, fun text h => ?_, by decide, by decide⟩
  have hlen : (jsTrim text).length ≤ text.length := jsTrim_length_le text
  have hpos : 0 < text.length := List.length_pos.mpr h
  simp only [calculateFocalIndex]
  split_ifs with h1
  · omega
  · have h35 : (jsTrim text).length * 35 / 100 < (jsTrim text).length := by
      rw [Nat.div_lt_iff_lt_mul (by omega)]
      omega
    omega

/-- Witness for C6 at the text "Hello,". -/
theorem focal_index_spec_witness :
    "Hello,".toList ≠ [] ∧ calculateFocalIndex "Hello,".toList < ("Hello,".toList).length :=
  ⟨by decide, focal_index_spec.2.1 "Hello,".toList (by decide)⟩

/-- Counterexample to claim C4 as stated: the chunk "U.S.A." at wpm 300 gets
delay 200 ms, not the claimed 260 ms (its trimmed length is 6, which does
not trigger the `> 10` length modifier). -/
theorem usa_delay_is_200_not_260 :
    calculateChunkDelay usaChunk 300 = 200 ∧ calculateChunkDelay usaChunk 300 ≠ 260 := by
  have htok : jsTrim usaChunk.text = "U.S.A.".toList := by decide
  have hkind : ¬((usaChunk.kind = Kind.phrase ∨ usaChunk.kind = Kind.idiom) ∧
      1 < countWords ("U.S.A.".toList)) := by decide
  have hexc : (acronymTest ("U.S.A.".toList) || abbrevTest ("U.S.A.".toList) ||
      numCommaTest ("U.S.A.".toList)) = true := by decide
  have hlen : ("U.S.A.".toList).length = 6 := by decide
  constructor
  · simp only [calculateChunkDelay, delayPre, htok, hkind, hexc, hlen, if_true, if_false]
    norm_num [jsRound]
  · simp only [calculateChunkDelay, delayPre, htok, hkind, hexc, hlen, if_true, if_false]
    norm_num [jsRound]

/-- Claim C4 (amended): the acronym exception fires on "U.S.A." at wpm 300,
so it gets no sentence bonus and its delay is the plain base 200 ms (its
length 6 triggers no length modifier), while "Hello." at wpm 300 gets the
flat `+300` bonus: 500 ms. -/
theorem exception_suppression_delays :
    acronymTest (jsTrim usaChunk.text) = true ∧
    calculateChunkDelay usaChunk 300 = 200 ∧
    calculateChunkDelay helloDotChunk 300 = 500 := by
  have htoku : jsTrim usaChunk.text = "U.S.A.".toList := by decide
  have hkindu : ¬((usaChunk.kind = Kind.phrase ∨ usaChunk.kind = Kind.idiom) ∧
      1 < countWords ("U.S.A.".toList)) := by decide
  have hexcu : (acronymTest ("U.S.A.".toList) || abbrevTest ("U.S.A.".toList) ||
      numCommaTest ("U.S.A.".toList)) = true := by decide
  have hlenu : ("U.S.A.".toList).length = 6 := by decide
  have htokh : jsTrim helloDotChunk.text = "Hello.".toList := by decide
  have hkindh : ¬((helloDotChunk.kind = Kind.phrase ∨ helloDotChunk.kind = Kind.idiom) ∧
      1 < countWords ("Hello.".toList)) := by decide
  have hexch : (acronymTest ("Hello.".toList) || abbrevTest ("Hello.".toList) ||
      numCommaTest ("Hello.".toList)) = false := by decide
  have hlenh : ("Hello.".toList).length = 6 := by decide
  have hlast : ("Hello.".toList).getLast? = some '.' := by decide
  have hsent : isSentenceEnd '.' = true := by decide
  refine ⟨by decide, ?_, ?_⟩
  · simp only [calculateChunkDelay, delayPre, htoku, hkindu, hexcu, hlenu, if_true, if_false]
    norm_num [jsRound]
  · simp only [calculateChunkDelay, delayPre, htokh, hkindh, hexch, hlenh, hlast, hsent,
      Bool.false_eq_true, if_false, if_true]
    norm_num [jsRound]

/-- Claim C5 (confirmed): a token whose trimmed text ends in a clause
punctuation mark and matches no exception pattern has its delay replaced by
`base / 0.9`, regardless of length modifier and phrase override; "Hello," at
wpm 300 gives 222 ms. -/
theorem clause_override_replaces_delay :
    (∀ (chunk : Chunk) (wpm : ℚ) (c : Char),
      (jsTrim chunk.text).getLast? = some c → isClauseEnd c = true →
      acronymTest (jsTrim chunk.text) = false →
      abbrevTest (jsTrim chunk.text) = false →
      numCommaTest (jsTrim chunk.text) = false →
      calculateChunkDelay chunk wpm = jsRound (60000 / wpm / (9 / 10))) ∧
    calculateChunkDelay helloCommaChunk 300 = 222 := by
  constructor
  · intro chunk wpm c hlast hcl hac hab hnc
    have hsent : isSentenceEnd c = false := clause_not_sentence hcl
    simp only [calculateChunkDelay, delayPre, hlast, hac, hab, hnc, hcl, hsent,
      Bool.or_self, Bool.or_false, Bool.false_eq_true, if_false, if_true]
  · have htok : jsTrim helloCommaChunk.text = "Hello,".toList := by decide
    have hkind : ¬((helloCommaChunk.kind = Kind.phrase ∨ helloCommaChunk.kind = Kind.idiom) ∧
        1 < countWords ("Hello,".toList)) := by decide
    have hexc : (acronymTest ("Hello,".toList) || abbrevTest ("Hello,".toList) ||
        numCommaTest ("Hello,".toList)) = false := by decide
    have hlast : ("Hello,".toList).getLast? = some ',' := by decide
    have hsent : isSentenceEnd ',' = false := by decide
    have hcl : isClauseEnd ',' = true := by decide
    simp only [calculateChunkDelay, delayPre, htok, hkind, hexc, hlast, hsent, hcl,
      Bool.false_eq_true, if_false, if_true]
    norm_num [jsRound]

/-- Witness for C5 at the chunk "Hello," and wpm 300. -/
theorem clause_override_replaces_delay_witness :
    calculateChunkDelay helloCommaChunk 300 = jsRound (60000 / 300 / (9 / 10)) :=
  clause_override_replaces_delay.1 helloCommaChunk 300 ','
    (by decide) (by decide) (by decide) (by decide) (by decide)

/-- Claim C7 (confirmed): for a fixed chunk the delay is strictly larger at
wpm 100 than at wpm 300. -/
theorem delay_monotone_in_wpm (chunk : Chunk) :
    calculateChunkDelay chunk 100 > calculateChunkDelay chunk 300 := by
  unfold calculateChunkDelay
  apply jsRound_lt_jsRound
  simp only [delayPre]
  rcases hlast : (jsTrim chunk.text).getLast? with _ | c
  all_goals simp only [hlast]
  all_goals split_ifs
  all_goals try norm_num
  all_goals rename_i hph
  all_goals have hn2 : 2 ≤ countWords (jsTrim chunk.text) := hph.2
  all_goals have hn : (2 : ℚ) ≤ (countWords (jsTrim chunk.text) : ℚ) := by exact_mod_cast hn2
  all_goals nlinarith [hn]

/-- Counterexample to claim C8 as stated: at `wpm = 120000 > 0` the chunk
"ab" (trimmed length 2, so the `× 0.9` short-token modifier applies) has
pre-rounding delay 0.45 ms, which rounds to 0, not a positive value. -/
theorem delay_not_positive_at_wpm_120000 :
    (0 : ℚ) < 120000 ∧ calculateChunkDelay abChunk 120000 = 0 := by
  refine ⟨by norm_num, ?_⟩
  have htok : jsTrim abChunk.text = ['a', 'b'] := by decide
  have hkind : ¬((abChunk.kind = Kind.phrase ∨ abChunk.kind = Kind.idiom) ∧
      1 < countWords ['a', 'b']) := by decide
  have hexc : (acronymTest ['a', 'b'] || abbrevTest ['a', 'b'] ||
      numCommaTest ['a', 'b']) = false := by decide
  have hlen : (['a', 'b'] : List Char).length = 2 := by decide
  have hlast : (['a', 'b'] : List Char).getLast? = some 'b' := by decide
  have hsent : isSentenceEnd 'b' = false := by decide
  have hcl : isClauseEnd 'b' = false := by decide
  simp only [calculateChunkDelay, delayPre, htok, hkind, hexc, hlen, hlast, hsent, hcl,
    Bool.false_eq_true, if_false, if_true]
  norm_num [jsRound]

/-- Claim C8 (amended): for every chunk the rounded delay is strictly
positive for every pacing rate `wpm` with `0 < wpm ≤ 108000` (the exact
threshold below which even the smallest pre-rounding delay, `0.9 × base`,
stays at or above one half). -/
theorem delay_positive_up_to_wpm_108000 (chunk : Chunk) (wpm : ℚ)
    (h1 : 0 < wpm) (h2 : wpm ≤ 108000) : 0 < calculateChunkDelay chunk wpm := by
  unfold calculateChunkDelay
  apply pos_jsRound
  have hb : (5 / 9 : ℚ) ≤ 60000 / wpm := by
    rw [le_div_iff₀ h1]; linarith
  have hq : (60000 / wpm) / ((9 : ℚ) / 10) = (60000 / wpm) * (10 / 9) := by ring
  simp only [delayPre]
  rcases hlast : (jsTrim chunk.text).getLast? with _ | c
  all_goals simp only [hlast]
  all_goals split_ifs
  all_goals try rw [hq]
  all_goals try linarith
  all_goals rename_i hph
  all_goals have hn2 : 2 ≤ countWords (jsTrim chunk.text) := hph.2
  all_goals have hn : (2 : ℚ) ≤ (countWords (jsTrim chunk.text) : ℚ) := by exact_mod_cast hn2
  all_goals nlinarith [hb, hn]

/-- Witness for C8 (amended) at the chunk "ab" and wpm 300. -/
theorem delay_positive_up_to_wpm_108000_witness :
    0 < calculateChunkDelay abChunk 300 :=
  delay_positive_up_to_wpm_108000 abChunk 300 (by norm_num) (by norm_num)

/-- Claim C3 (confirmed): `setCurrentIndex` clamps its argument into
`[0, len-1]` without touching the play state (`-5 ↦ 0` and `500 ↦ 99` on a
100-chunk sequence), and `advanceIndex` at the last index pauses playback
and leaves the index unchanged. -/
theorem seek_clamps_and_advance_pauses :
    (∀ s : StoreState, (setCurrentIndex 100 (-5) s).currentIndex = 0) ∧
    (∀ s : StoreState, (setCurrentIndex 100 500 s).currentIndex = 99) ∧
    (∀ (len : Nat) (idx : ℤ) (s : StoreState), 1 ≤ len →
      0 ≤ (setCurrentIndex len idx s).currentIndex ∧
      (setCurrentIndex len idx s).currentIndex ≤ (len : ℤ) - 1 ∧
      (setCurrentIndex len idx s).isPlaying = s.isPlaying) ∧
    (∀ (len : Nat) (s : StoreState), s.currentIndex = (len : ℤ) - 1 →
      (advanceIndex len s).isPlaying = false ∧
      (advanceIndex len s).currentIndex = (len : ℤ) - 1) := by
  refine ⟨fun s => by simp [setCurrentIndex], fun s => by simp [setCurrentIndex],
    fun len idx s hlen => ?_, fun len s hidx => ?_⟩
  · unfold setCurrentIndex
    refine ⟨le_max_left 0 _, ?_, rfl⟩
    simp only
    omega
  · unfold advanceIndex
    rw [if_pos (by omega)]
    exact ⟨rfl, hidx⟩

/-- A found occurrence is at or after the search start. -/
theorem indexOfFrom_ge {text pat : List Char} {i s : Nat}
    (h : indexOfFrom text pat i = some s) : i ≤ s := by
  unfold indexOfFrom at h
  have h2 := List.find?_some h
  simp only [Bool.and_eq_true, decide_eq_true_eq] at h2
  exact h2.1

/-- Resolved enriched items start at or after the search start, and are
ordered without overlap. -/
theorem resolveEnriched_ordered (text : List Char) :
    ∀ (items : List (List Char × Kind)) (i : Nat),
    (∀ ch ∈ resolveEnriched text items i, i ≤ ch.start) ∧
    List.Chain' (fun a b => a.stop ≤ b.start) (resolveEnriched text items i) := by
  intro items
  induction items with
  | nil => intro i; simp [resolveEnriched]
  | cons hd tl ih =>
    intro i
    obtain ⟨t, k⟩ := hd
    rcases hfind : indexOfFrom text t i with _ | s
    · simpa [resolveEnriched, hfind] using ih i
    · have hs : i ≤ s := indexOfFrom_ge hfind
      have htl := ih (s + t.length)
      constructor
      · intro ch hch
        simp only [resolveEnriched, hfind, List.mem_cons] at hch
        rcases hch with rfl | hch
        · exact hs
        · have := htl.1 ch hch; omega
      · simp only [resolveEnriched, hfind]
        rw [List.chain'_cons']
        refine ⟨fun y hy => ?_, htl.2⟩
        have hmem : y ∈ resolveEnriched text tl (s + t.length) :=
          List.mem_of_mem_head? hy
        exact htl.1 y hmem

/-- Claim C2 (confirmed): with the enriched items resolved left-to-right
(first occurrence at or after the end of the previously resolved item,
unfound items dropped — that is `resolveEnriched`), the merged sequence is
exactly the resolved items followed by the existing chunks whose start is at
or after `E`, the end of the last resolved item (0 if none); hence no
existing chunk with start ≥ E is dropped, and the resolved prefix is ordered
and non-overlapping. -/
theorem reconciler_merge (text : List Char) (enriched : List (List Char × Kind))
    (existing : List Chunk) :
    processAIChunks existing (resolveEnriched text enriched 0) =
      resolveEnriched text enriched 0 ++
        existing.filter
          (fun c => decide (lastResolvedEnd (resolveEnriched text enriched 0) ≤ c.start)) ∧
    (∀ c ∈ existing, lastResolvedEnd (resolveEnriched text enriched 0) ≤ c.start →
      c ∈ processAIChunks existing (resolveEnriched text enriched 0)) ∧
    List.Chain' (fun a b => a.stop ≤ b.start) (resolveEnriched text enriched 0) := by
  have heq : processAIChunks existing (resolveEnriched text enriched 0) =
      resolveEnriched text enriched 0 ++
        existing.filter
          (fun c => decide (lastResolvedEnd (resolveEnriched text enriched 0) ≤ c.start)) := by
    rcases hgl : (resolveEnriched text enriched 0).getLast? with _ | last
    · have hnil : resolveEnriched text enriched 0 = [] := by simpa using hgl
      simp [processAIChunks, lastResolvedEnd, hnil]
    · simp [processAIChunks, lastResolvedEnd, hgl]
  refine ⟨heq, fun c hc hE => ?_, (resolveEnriched_ordered text enriched 0).2⟩
  rw [heq]
  exact List.mem_append_right _ (List.mem_filter.mpr ⟨hc, by simpa using hE⟩)

/-- Witness for C2: enriching "ab" with the phrase "ab" resolves it to
offsets [0,2), and the merge keeps an existing chunk starting at offset 5. -/
theorem reconciler_merge_witness :
    (⟨['c'], 5, 6, Kind.word, 0⟩ : Chunk) ∈
      processAIChunks [⟨['c'], 5, 6, Kind.word, 0⟩]
        (resolveEnriched "ab".toList [(['a', 'b'], Kind.phrase)] 0) :=
  (reconciler_merge "ab".toList [(['a', 'b'], Kind.phrase)]
      [⟨['c'], 5, 6, Kind.word, 0⟩]).2.1
    ⟨['c'], 5, 6, Kind.word, 0⟩ (by simp)
    (by simp +decide [resolveEnriched, indexOfFrom, lastResolvedEnd, occursAt,
      calculateFocalIndex, jsTrim, List.range_succ])

/-- Witness for C3: a seek and a final advance on a concrete 100-chunk
store. -/
theorem seek_clamps_and_advance_pauses_witness :
    0 ≤ (setCurrentIndex 100 7 ⟨true, 3⟩).currentIndex ∧
    (advanceIndex 100 ⟨true, 99⟩).isPlaying = false :=
  ⟨(seek_clamps_and_advance_pauses.2.2.1 100 7 ⟨true, 3⟩ (by decide)).1,
   (seek_clamps_and_advance_pauses.2.2.2 100 ⟨true, 99⟩ (by decide)).1⟩

theorem wordChar_not_ws {c : Char} (h : wordChar c = true) : jsWhitespace c = false := by
  simp [wordChar, jsWhitespace] at *
  omega

theorem sentencePunct_not_ws {c : Char} (h : sentencePunct c = true) :
    jsWhitespace c = false := by
  simp [sentencePunct, jsWhitespace] at *
  omega

theorem wordToken_all_notWS (l : List Char) : ∀ x ∈ wordToken l, notWS x = true := by
  intro x hx
  rcases List.mem_append.mp hx with h | h
  · simp [notWS, wordChar_not_ws (List.mem_takeWhile_imp h)]
  · simp [notWS, sentencePunct_not_ws (List.mem_takeWhile_imp h)]

theorem wordToken_split {c : Char} (cs : List Char) (h : wordChar c = true) :
    wordToken (c :: cs) ++ (cs.dropWhile wordChar).dropWhile sentencePunct = c :: cs := by
  unfold wordToken
  rw [List.takeWhile_cons_of_pos h, List.dropWhile_cons_of_pos h]
  simp only [List.cons_append, List.append_assoc, List.takeWhile_append_dropWhile]

theorem wordToken_cons {c : Char} (cs : List Char) (h : wordChar c = true) :
    wordToken (c :: cs) =
      c :: (cs.takeWhile wordChar ++ (cs.dropWhile wordChar).takeWhile sentencePunct) := by
  unfold wordToken
  rw [List.takeWhile_cons_of_pos h, List.dropWhile_cons_of_pos h, List.cons_append]

theorem notWS_split {c : Char} (cs : List Char) (h : notWS c = true) :
    (c :: cs).takeWhile notWS ++ cs.dropWhile notWS = c :: cs := by
  calc (c :: cs).takeWhile notWS ++ cs.dropWhile notWS
      = (c :: cs).takeWhile notWS ++ (c :: cs).dropWhile notWS := by
        rw [List.dropWhile_cons_of_pos h]
    _ = c :: cs := List.takeWhile_append_dropWhile _ _

/-- One step of the invariant carried through the chunker loop: the emitted
head token is a non-empty prefix of the suffix consisting of non-whitespace
characters, and everything later lives in the remainder. -/
theorem chunkerAux_step {fuel : Nat} {tok rest l : List Char} {i : Nat}
    (hsplit : tok ++ rest = l)
    (htok : ∀ x ∈ tok, notWS x = true)
    (htoklen : 1 ≤ tok.length)
    (IH : (((algorithmicChunkerAux fuel rest (i + tok.length)).map Chunk.text).flatten =
        rest.filter notWS) ∧
      (∀ ch ∈ algorithmicChunkerAux fuel rest (i + tok.length),
        i + tok.length ≤ ch.start ∧ ch.text ≠ [] ∧ ch.stop = ch.start + ch.text.length ∧
        (rest.drop (ch.start - (i + tok.length))).take ch.text.length = ch.text) ∧
      List.Chain' (fun a b => a.stop ≤ b.start)
        (algorithmicChunkerAux fuel rest (i + tok.length)) ∧
      List.Chain' (fun a b => a.start < b.start)
        (algorithmicChunkerAux fuel rest (i + tok.length))) :
    (((mkWordChunk tok i :: algorithmicChunkerAux fuel rest (i + tok.length)).map
        Chunk.text).flatten = l.filter notWS) ∧
    (∀ ch ∈ mkWordChunk tok i :: algorithmicChunkerAux fuel rest (i + tok.length),
      i ≤ ch.start ∧ ch.text ≠ [] ∧ ch.stop = ch.start + ch.text.length ∧
      (l.drop (ch.start - i)).take ch.text.length = ch.text) ∧
    List.Chain' (fun a b => a.stop ≤ b.start)
      (mkWordChunk tok i :: algorithmicChunkerAux fuel rest (i + tok.length)) ∧
    List.Chain' (fun a b => a.start < b.start)
      (mkWordChunk tok i :: algorithmicChunkerAux fuel rest (i + tok.length)) := by
  refine ⟨?_, ?_, ?_, ?_⟩
  · rw [List.map_cons, List.flatten_cons, IH.1, ← hsplit, List.filter_append,
      List.filter_eq_self.mpr htok]
    rfl
  · intro ch hch
    rcases List.mem_cons.mp hch with rfl | hch
    · refine ⟨le_refl i, ?_, rfl, ?_⟩
      · simp only [mkWordChunk]
        intro hnil
        rw [hnil] at htoklen
        simp at htoklen
      · simp only [mkWordChunk, Nat.sub_self, List.drop_zero]
        rw [← hsplit]
        exact List.take_left _ _
    · obtain ⟨h1, h2, h3, h4⟩ := IH.2.1 ch hch
      refine ⟨by omega, h2, h3, ?_⟩
      have hk : ch.start - i = tok.length + (ch.start - (i + tok.length)) := by omega
      rw [hk, ← hsplit, List.drop_append]
      exact h4
  · rw [List.chain'_cons']
    refine ⟨fun y hy => ?_, IH.2.2.1⟩
    have := (IH.2.1 y (List.mem_of_mem_head? hy)).1
    simp only [mkWordChunk]
    omega
  · rw [List.chain'_cons']
    refine ⟨fun y hy => ?_, IH.2.2.2⟩
    have := (IH.2.1 y (List.mem_of_mem_head? hy)).1
    simp only [mkWordChunk]
    omega

theorem chunkerAux_spec : ∀ (fuel : Nat) (l : List Char) (i : Nat), l.length ≤ fuel →
    (((algorithmicChunkerAux fuel l i).map Chunk.text).flatten = l.filter notWS) ∧
    (∀ ch ∈ algorithmicChunkerAux fuel l i,
      i ≤ ch.start ∧ ch.text ≠ [] ∧ ch.stop = ch.start + ch.text.length ∧
      (l.drop (ch.start - i)).take ch.text.length = ch.text) ∧
    List.Chain' (fun a b => a.stop ≤ b.start) (algorithmicChunkerAux fuel l i) ∧
    List.Chain' (fun a b => a.start < b.start) (algorithmicChunkerAux fuel l i) := by
  intro fuel
  induction fuel with
  | zero =>
    intro l i hl
    have hnil : l = [] := List.length_eq_zero.mp (by omega)
    subst hnil
    simp [algorithmicChunkerAux]
  | succ fuel ih =>
    intro l i hl
    cases l with
    | nil => simp [algorithmicChunkerAux]
    | cons c cs =>
      simp only [List.length_cons] at hl
      by_cases hws : jsWhitespace c = true
      · have IH := ih cs (i + 1) (by omega)
        simp only [algorithmicChunkerAux, hws, if_true]
        refine ⟨?_, ?_, IH.2.2.1, IH.2.2.2⟩
        · rw [IH.1, List.filter_cons_of_neg (by simp [notWS, hws])]
        · intro ch hch
          obtain ⟨h1, h2, h3, h4⟩ := IH.2.1 ch hch
          refine ⟨by omega, h2, h3, ?_⟩
          have hk : ch.start - i = (ch.start - (i + 1)) + 1 := by omega
          rw [hk, List.drop_succ_cons]
          exact h4
      · by_cases hwc : wordChar c = true
        · have hrest : ((cs.dropWhile wordChar).dropWhile sentencePunct).length ≤ fuel := by
            have h1 := (List.dropWhile_sublist wordChar (l := cs)).length_le
            have h2 := (List.dropWhile_sublist sentencePunct
              (l := cs.dropWhile wordChar)).length_le
            omega
          have htoklen : 1 ≤ (wordToken (c :: cs)).length := by
            rw [wordToken_cons cs hwc]
            simp
          simp only [algorithmicChunkerAux, hws, hwc, if_true, if_false,
            Bool.false_eq_true]
          exact chunkerAux_step (wordToken_split cs hwc) (wordToken_all_notWS (c :: cs))
            htoklen (ih _ _ hrest)
        · have hnw : notWS c = true := by simp [notWS, hws]
          have hrest : (cs.dropWhile notWS).length ≤ fuel := by
            have := (List.dropWhile_sublist notWS (l := cs)).length_le
            omega
          have htoklen : 1 ≤ ((c :: cs).takeWhile notWS).length := by
            rw [List.takeWhile_cons_of_pos hnw]
            simp
          simp only [algorithmicChunkerAux, hws, hwc, if_true, if_false,
            Bool.false_eq_true]
          exact chunkerAux_step (notWS_split cs hnw)
            (fun x hx => List.mem_takeWhile_imp hx) htoklen (ih _ _ hrest)


/-- Claim C1 (confirmed): concatenating the `[start, stop)` slices of the
tokenizer's chunks, in order, reconstructs exactly the non-whitespace
characters of the input in original order; chunks are non-empty and
non-overlapping with strictly increasing starts; and empty or
whitespace-only input yields the empty sequence. -/
theorem tokenizer_reconstruction (text : List Char) :
    ((algorithmicChunker text).map
        (fun ch => (text.drop ch.start).take (ch.stop - ch.start))).flatten =
      text.filter notWS ∧
    (∀ ch ∈ algorithmicChunker text, ch.start < ch.stop) ∧
    List.Chain' (fun a b => a.stop ≤ b.start) (algorithmicChunker text) ∧
    List.Chain' (fun a b => a.start < b.start) (algorithmicChunker text) ∧
    (text.all jsWhitespace = true → algorithmicChunker text = []) := by
  obtain ⟨hflat, hmem, hchain, hmono⟩ := chunkerAux_spec text.length text 0 (le_refl _)
  refine ⟨?_, ?_, hchain, hmono, ?_⟩
  · rw [← hflat]
    refine congrArg List.flatten (List.map_congr_left fun ch hch => ?_)
    obtain ⟨h1, h2, h3, h4⟩ := hmem ch hch
    have hs : ch.stop - ch.start = ch.text.length := by omega
    rw [hs]
    simpa using h4
  · intro ch hch
    obtain ⟨h1, h2, h3, h4⟩ := hmem ch hch
    have : 0 < ch.text.length := List.length_pos.mpr h2
    omega
  · intro hall
    cases hc : algorithmicChunker text with
    | nil => rfl
    | cons ch rest =>
      exfalso
      have hfilter : text.filter notWS = [] := by
        rw [List.filter_eq_nil_iff]
        intro a ha
        simp [notWS, List.all_eq_true.mp hall a ha]
      unfold algorithmicChunker at hc
      rw [hc] at hflat
      rw [hfilter, List.map_cons, List.flatten_cons] at hflat
      have hnil : ch.text = [] := (List.append_eq_nil.mp hflat).1
      exact (hmem ch (by rw [hc]; exact List.mem_cons_self ch rest)).2.1 hnil

/-- Witness for C1 at a whitespace-only text. -/
theorem tokenizer_reconstruction_witness :
    (['\t', ' '] : List Char).all jsWhitespace = true ∧
    algorithmicChunker ['\t', ' '] = [] :=
  ⟨by decide, (tokenizer_reconstruction ['\t', ' ']).2.2.2.2 (by decide)⟩

/-- A case-insensitive keyword match needs at least the keyword's length. -/
theorem startsWithCI_length : ∀ (k l : List Char), startsWithCI k l = true → k.length ≤ l.length
  | [], l, _ => Nat.zero_le _
  | _ :: _, [], h => by simp [startsWithCI] at h
  | a :: ks, c :: cs, h => by
    simp only [startsWithCI, Bool.and_eq_true] at h
    simpa using startsWithCI_length ks cs h.2

/-- A capture of the first heading alternative is non-empty. -/
theorem tryAltA_len {l1 cap : List Char} (h : tryAltA l1 = some cap) : 1 ≤ cap.length := by
  unfold tryAltA at h
  revert h
  cases hf : kwA.find? (fun k => startsWithCI k l1) with
  | none => intro h; exact absurd h (by simp)
  | some kw =>
    intro h
    have hsw := List.find?_some hf
    simp only at hsw
    have hkw := List.mem_of_find?_eq_some hf
    have hkwlen : 1 ≤ kw.length := by
      have hall : ∀ k ∈ kwA, 1 ≤ k.length := by decide
      exact hall kw hkw
    have hl1 : kw.length ≤ l1.length := startsWithCI_length kw l1 hsw
    simp only at h
    by_cases hsp : (List.takeWhile jsWhitespace (l1.drop kw.length)).isEmpty = true
    · rw [if_pos hsp] at h
      exact absurd h (by simp)
    · rw [if_neg hsp] at h
      revert h
      cases hh : (List.drop (List.takeWhile jsWhitespace (List.drop kw.length l1)).length
          (List.drop kw.length l1)).head? with
      | none => intro h; exact absurd h (by simp)
      | some d =>
        intro h
        simp only at h
        split_ifs at h with hd
        have hlen := congrArg List.length (Option.some.inj h)
        simp only [List.length_take] at hlen
        omega

/-- A capture of the second heading alternative is non-empty. -/
theorem tryAltB_len {l1 cap : List Char} (h : tryAltB l1 = some cap) : 1 ≤ cap.length := by
  unfold tryAltB at h
  revert h
  cases hf : kwB.find? (fun k => startsWithCI k l1) with
  | none => intro h; exact absurd h (by simp)
  | some kw =>
    intro h
    have hsw := List.find?_some hf
    simp only at hsw
    have hkw := List.mem_of_find?_eq_some hf
    have hkwlen : 1 ≤ kw.length := by
      have hall : ∀ k ∈ kwB, 1 ≤ k.length := by decide
      exact hall kw hkw
    have hl1 : kw.length ≤ l1.length := startsWithCI_length kw l1 hsw
    have hlen := congrArg List.length (Option.some.inj h)
    simp only [List.length_take] at hlen
    omega

/-- A capture of the heading alternation is non-empty. -/
theorem tryAlt_len {l1 cap : List Char} (h : tryAlt l1 = some cap) : 1 ≤ cap.length := by
  unfold tryAlt at h
  revert h
  cases hA : tryAltA l1 with
  | none => intro h; exact tryAltB_len h
  | some capA =>
    intro h
    rw [← Option.some.inj h]
    exact tryAltA_len hA

/-- A successful body match consumes at least one character. -/
theorem bodyAt_pos {l cap : List Char} {n : Nat} {fl : Bool}
    (h : bodyAt l = some (cap, n, fl)) : 1 ≤ n := by
  unfold bodyAt at h
  revert h
  cases hA : tryAlt (l.dropWhile jsWhitespace) with
  | none => intro h; exact absurd h (by simp)
  | some cap2 =>
    intro h
    simp only [Option.some.injEq, Prod.mk.injEq] at h
    have := tryAlt_len hA
    omega

/-- A successful anchored match consumes at least one character. -/
theorem anchoredBodyAt_pos {caret : Bool} {c : Char} {cs cap : List Char} {n : Nat}
    {fl : Bool} (h : anchoredBodyAt caret c cs = some (cap, n, fl)) : 1 ≤ n := by
  unfold anchoredBodyAt at h
  split_ifs at h with h1 h2
  · exact bodyAt_pos h
  · revert h
    cases hb : bodyAt cs with
    | none => intro h; exact absurd h (by simp)
    | some x =>
      obtain ⟨cap2, n2, fl2⟩ := x
      intro h
      simp only [Option.some.injEq, Prod.mk.injEq] at h
      omega

/-- Every reported match index lies at or after the scan position. -/
theorem scanChapters_ge : ∀ (fuel : Nat) (fl : Bool) (l : List Char) (p : Nat),
    ∀ q ∈ scanChapters fuel fl l p, p ≤ q.1 := by
  intro fuel
  induction fuel with
  | zero => intro fl l p q hq; simp [scanChapters] at hq
  | succ fuel ih =>
    intro fl l p q hq
    cases l with
    | nil => simp [scanChapters] at hq
    | cons c cs =>
      rcases hab : anchoredBodyAt fl c cs with _ | x
      · simp only [scanChapters, hab] at hq
        have := ih _ _ _ q hq
        omega
      · obtain ⟨cap, n, fl2⟩ := x
        simp only [scanChapters, hab, List.mem_cons] at hq
        rcases hq with rfl | hq
        · exact le_refl p
        · have := ih _ _ _ q hq
          omega

/-- Match indices are strictly increasing across the scan. -/
theorem scanChapters_pairwise : ∀ (fuel : Nat) (fl : Bool) (l : List Char) (p : Nat),
    List.Pairwise (fun a b => a.1 < b.1) (scanChapters fuel fl l p) := by
  intro fuel
  induction fuel with
  | zero => intro fl l p; simp [scanChapters]
  | succ fuel ih =>
    intro fl l p
    cases l with
    | nil => simp [scanChapters]
    | cons c cs =>
      rcases hab : anchoredBodyAt fl c cs with _ | x
      · simp only [scanChapters, hab]
        exact ih _ _ _
      · obtain ⟨cap, n, fl2⟩ := x
        simp only [scanChapters, hab]
        rw [List.pairwise_cons]
        refine ⟨fun q hq => ?_, ih _ _ _⟩
        have h1 := scanChapters_ge fuel fl2 (cs.drop (n - 1)) (p + n) q hq
        have h2 := anchoredBodyAt_pos hab
        simp only
        omega

/-- `findIndex` for the threshold predicate is monotone in the threshold. -/
theorem jsFindIndex_mono {l : List Chunk} {a b ia ib : Nat} (hab : a ≤ b)
    (ha : jsFindIndex (fun ch => decide (a ≤ ch.start)) l = some ia)
    (hb : jsFindIndex (fun ch => decide (b ≤ ch.start)) l = some ib) : ia ≤ ib := by
  induction l generalizing ia ib with
  | nil => simp [jsFindIndex] at ha
  | cons x xs ih =>
    simp only [jsFindIndex] at ha hb
    by_cases hbx : b ≤ x.start
    · have hax : a ≤ x.start := le_trans hab hbx
      simp only [hax, hbx, decide_eq_true_eq, if_pos, Option.some.injEq] at ha hb
      omega
    · rw [if_neg (by simpa using hbx)] at hb
      by_cases hax : a ≤ x.start
      · rw [if_pos (by simpa using hax)] at ha
        simp only [Option.some.injEq] at ha
        omega
      · rw [if_neg (by simpa using hax)] at ha
        obtain ⟨ia2, hia2, rfl⟩ := Option.map_eq_some'.mp ha
        obtain ⟨ib2, hib2, rfl⟩ := Option.map_eq_some'.mp hb
        have := ih hia2 hib2
        omega

/-- `findIndex` misses when no element satisfies the predicate. -/
theorem jsFindIndex_eq_none {p : Chunk → Bool} {l : List Chunk}
    (h : ∀ x ∈ l, p x = false) : jsFindIndex p l = none := by
  induction l with
  | nil => rfl
  | cons x xs ih =>
    simp only [jsFindIndex, h x (List.mem_cons_self x xs), if_false]
    rw [ih (fun y hy => h y (List.mem_cons_of_mem x hy))]
    rfl

/-- The chapter-building loop keeps chunk indices strictly increasing: a
kept chapter's index strictly exceeds the previously kept one, given the
match offsets arrive sorted. -/
theorem buildChapters_spec (chunks : List Chunk) :
    ∀ (ms : List (Nat × List Char)) (lastIdx : Option Nat),
    List.Pairwise (fun a b => a.1 ≤ b.1) ms →
    (∀ j, lastIdx = some j → ∀ m ∈ ms, ∀ k,
      jsFindIndex (fun ch => decide (m.1 ≤ ch.start)) chunks = some k → j ≤ k) →
    (∀ ch ∈ buildChapters chunks ms lastIdx, ∀ j, lastIdx = some j → j < ch.chunkIndex) ∧
    List.Pairwise (fun a b => a.chunkIndex < b.chunkIndex)
      (buildChapters chunks ms lastIdx) := by
  intro ms
  induction ms with
  | nil => intro lastIdx _ _; exact ⟨by simp [buildChapters], by simp [buildChapters]⟩
  | cons m ms ih =>
    intro lastIdx hsort hlow
    obtain ⟨hm, htail⟩ := List.pairwise_cons.mp hsort
    cases hf : jsFindIndex (fun ch => decide (m.1 ≤ ch.start)) chunks with
    | none =>
      simp only [buildChapters, hf]
      exact ih lastIdx htail
        (fun j hj m2 hm2 k hk => hlow j hj m2 (List.mem_cons_of_mem m hm2) k hk)
    | some idx =>
      have hnewlow : ∀ j, (some idx : Option Nat) = some j → ∀ m2 ∈ ms, ∀ k,
          jsFindIndex (fun ch => decide (m2.1 ≤ ch.start)) chunks = some k → j ≤ k := by
        intro j hj m2 hm2 k hk
        cases hj
        exact jsFindIndex_mono (hm m2 hm2) hf hk
      cases lastIdx with
      | none =>
        simp only [buildChapters, hf]
        have IH := ih (some idx) htail hnewlow
        constructor
        · intro ch hch j hj
          exact absurd hj (by simp)
        · rw [List.pairwise_cons]
          exact ⟨fun ch hch => IH.1 ch hch idx rfl, IH.2⟩
      | some j =>
        have hjidx : j ≤ idx :=
          hlow j rfl m (List.mem_cons_self m ms) idx hf
        by_cases hje : j = idx
        · subst hje
          simp only [buildChapters, hf, if_pos rfl]
          have IH := ih (some j) htail (by
            intro j2 hj2
            cases hj2
            intro m2 hm2 k hk
            exact jsFindIndex_mono (hm m2 hm2) hf hk)
          exact IH
        · simp only [buildChapters, hf, if_neg hje]
          have IH := ih (some idx) htail hnewlow
          constructor
          · intro ch hch j2 hj2
            cases hj2
            rcases List.mem_cons.mp hch with rfl | hch
            · exact lt_of_le_of_ne hjidx hje
            · have := IH.1 ch hch idx rfl
              omega
          · rw [List.pairwise_cons]
            exact ⟨fun ch hch => IH.1 ch hch idx rfl, IH.2⟩

/-- When no match resolves to a chunk, the loop keeps nothing. -/
theorem buildChapters_nil_of_unresolvable (chunks : List Chunk) :
    ∀ (ms : List (Nat × List Char)) (lastIdx : Option Nat),
    (∀ m ∈ ms, jsFindIndex (fun ch => decide (m.1 ≤ ch.start)) chunks = none) →
    buildChapters chunks ms lastIdx = [] := by
  intro ms
  induction ms with
  | nil => intro lastIdx _; rfl
  | cons m ms ih =>
    intro lastIdx h
    simp only [buildChapters, h m (List.mem_cons_self m ms)]
    exact ih lastIdx (fun m2 hm2 => h m2 (List.mem_cons_of_mem m hm2))

/-- `extractChapters` unfolded at its final default test. -/
theorem extractChapters_ite (text : List Char) (chunks : List Chunk) :
    extractChapters text chunks =
      if (buildChapters chunks (scanChapters text.length true text 0) none).isEmpty
      then [⟨"Start of Text".toList, 0⟩]
      else buildChapters chunks (scanChapters text.length true text 0) none := rfl

/-- Claim C9 (confirmed): for every text and chunk sequence the extracted
chapter list is strictly increasing in `chunkIndex` (consecutive matches
resolving to the same chunk index are deduplicated keeping the first), it is
never empty, and when the scanner finds no heading-like lines the result is
exactly the single default marker. -/
theorem extract_chapters_valid (text : List Char) (chunks : List Chunk) :
    List.Pairwise (fun a b => a.chunkIndex < b.chunkIndex) (extractChapters text chunks) ∧
    extractChapters text chunks ≠ [] ∧
    (scanChapters text.length true text 0 = [] →
      extractChapters text chunks = [⟨"Start of Text".toList, 0⟩]) := by
  have hms := (scanChapters_pairwise text.length true text 0).imp
    (fun h => le_of_lt h)
  have hspec := buildChapters_spec chunks (scanChapters text.length true text 0) none
    hms (by simp)
  rw [extractChapters_ite]
  by_cases hB : (buildChapters chunks (scanChapters text.length true text 0) none).isEmpty
  · rw [if_pos hB]
    exact ⟨by simp, by simp, fun _ => rfl⟩
  · rw [if_neg hB]
    refine ⟨hspec.2, by simpa [List.isEmpty_iff] using hB, fun hscan => ?_⟩
    rw [hscan] at hB
    exact absurd rfl hB
/-- Witness for C9 at the heading-free text "hi". -/
theorem extract_chapters_valid_witness :
    scanChapters ("hi".toList).length true "hi".toList 0 = [] ∧
    extractChapters "hi".toList [] = [⟨"Start of Text".toList, 0⟩] :=
  ⟨by decide, (extract_chapters_valid "hi".toList []).2.2 (by decide)⟩

/-- Claim C10 (confirmed): when no heading match has a chunk starting at or
after its offset — in particular whenever the chunk list is empty — every
match is discarded and the extractor returns exactly the default marker,
even if the text does contain heading-like lines. -/
theorem extract_default_when_unresolvable (text : List Char) (chunks : List Chunk)
    (h : ∀ m ∈ scanChapters text.length true text 0, ∀ c ∈ chunks, c.start < m.1) :
    extractChapters text chunks = [⟨"Start of Text".toList, 0⟩] := by
  have hnone : ∀ m ∈ scanChapters text.length true text 0,
      jsFindIndex (fun ch => decide (m.1 ≤ ch.start)) chunks = none := by
    intro m hm
    refine jsFindIndex_eq_none (fun c hc => ?_)
    have := h m hm c hc
    simp only [decide_eq_false_iff_not]
    omega
  rw [extractChapters_ite,
    buildChapters_nil_of_unresolvable chunks _ none hnone]
  rfl

/-- Witness for C10: a text with a heading but no chunks at all. -/
theorem extract_default_when_unresolvable_witness :
    scanChapters ("Chapter 1\nx".toList).length true "Chapter 1\nx".toList 0 ≠ [] ∧
    extractChapters "Chapter 1\nx".toList [] = [⟨"Start of Text".toList, 0⟩] :=
  ⟨by decide, extract_default_when_unresolvable "Chapter 1\nx".toList [] (by simp)⟩

end Readall
